import Mathlib

/-!
Verification of the NERRF tracker event ingestion and broadcast engine
(`tracker/cmd/tracker/main.go`), shallowly embedded in Lean 4.

Bytes are modelled as natural numbers below 256, byte sequences as
`List Nat`. The raw record layout follows the Go `event` struct read with
`binary.Read(..., binary.LittleEndian, &e)`: fields are packed with no
padding, so the fixed record size is 8+4+4+16+4+8+8+256+256 = 564 bytes.
`binary.Read` from a `bytes.Reader` consumes exactly that many bytes and
fails only when fewer are available; extra bytes are ignored.
-/

namespace Nerrf

/-- Interpret a little-endian byte list as an unsigned natural number.
Mirrors `encoding/binary` little-endian decoding; each byte is reduced
mod 256 so that only byte values contribute. -/
def leNat (bs : List Nat) : Nat :=
  bs.foldr (fun b acc => b % 256 + 256 * acc) 0

/-- Two's-complement reinterpretation of a `w`-bit unsigned value as a
signed integer, as Go does when converting `uint64` to `int64`. -/
def toSigned (w : Nat) (v : Nat) : Int :=
  if v % 2 ^ w < 2 ^ (w - 1) then ((v % 2 ^ w : Nat) : Int)
  else ((v % 2 ^ w : Nat) : Int) - 2 ^ w

/-- The raw eBPF record, mirroring the Go struct `event` in `main.go`:
`Ts uint64, Pid uint32, Tid uint32, Comm [16]byte, SyscallId uint32,
RetVal int64, Bytes uint64, Path [256]byte, NewPath [256]byte`. -/
structure event where
  Ts : Nat
  Pid : Nat
  Tid : Nat
  Comm : List Nat
  SyscallId : Nat
  RetVal : Int
  Bytes : Nat
  Path : List Nat
  NewPath : List Nat
deriving DecidableEq, Repr

/-- Packed size of the `event` struct under `encoding/binary`
(no padding): 8+4+4+16+4+8+8+256+256. -/
def eventSize : Nat := 564

/-- `binary.Read(bytes.NewReader(raw), binary.LittleEndian, &e)`:
fails exactly when fewer than `eventSize` bytes are available; otherwise
decodes the first `eventSize` bytes little-endian, field by field, and
ignores any excess bytes in the reader. -/
def decodeEvent (bs : List Nat) : Option event :=
  if bs.length < eventSize then none
  else some
    { Ts := leNat (bs.take 8)
      Pid := leNat ((bs.drop 8).take 4)
      Tid := leNat ((bs.drop 12).take 4)
      Comm := (bs.drop 16).take 16
      SyscallId := leNat ((bs.drop 32).take 4)
      RetVal := toSigned 64 (leNat ((bs.drop 36).take 8))
      Bytes := leNat ((bs.drop 44).take 8)
      Path := (bs.drop 52).take 256
      NewPath := (bs.drop 308).take 256 }

/-- `syscallName` from `main.go`: maps the custom syscall identifier to a
human-readable name; every unrecognised identifier maps to `unknown`. -/
def syscallName (id : Nat) : String :=
  if id = 1 then "openat"
  else if id = 2 then "write"
  else if id = 3 then "rename"
  else "unknown"

/-- Byte access with an out-of-range sentinel: positions beyond the end
read as 256, which fails every byte-range test of the UTF-8 tables, so a
truncated multi-byte sequence is rejected exactly as Go rejects it. -/
def byteAt (bs : List Nat) (i : Nat) : Nat := bs.getD i 256

/-- Go `utf8.DecodeRune`, reduced to the length of the first rune:
`some w` when the leading bytes encode a valid rune of `w` bytes, `none`
when they do not (Go's `(RuneError, 1)` case). The byte-range conditions
are Go's `utf8` accept-range tables: they reject stray continuation
bytes, overlong encodings, surrogates and values above U+10FFFF. -/
def runeLen (bs : List Nat) : Option Nat :=
  let b0 := byteAt bs 0
  let b1 := byteAt bs 1
  let b2 := byteAt bs 2
  let b3 := byteAt bs 3
  if b0 < 0x80 then some 1
  else if b0 < 0xC2 then none
  else if b0 ≤ 0xDF then
    if 0x80 ≤ b1 ∧ b1 ≤ 0xBF then some 2 else none
  else if b0 ≤ 0xEF then
    if (if b0 = 0xE0 then 0xA0 else 0x80) ≤ b1 ∧ b1 ≤ (if b0 = 0xED then 0x9F else 0xBF)
        ∧ 0x80 ≤ b2 ∧ b2 ≤ 0xBF
    then some 3 else none
  else if b0 ≤ 0xF4 then
    if (if b0 = 0xF0 then 0x90 else 0x80) ≤ b1 ∧ b1 ≤ (if b0 = 0xF4 then 0x8F else 0xBF)
        ∧ 0x80 ≤ b2 ∧ b2 ≤ 0xBF ∧ 0x80 ≤ b3 ∧ b3 ≤ 0xBF
    then some 4 else none
  else none

/-- Fuelled driver for `utf8Valid`; the fuel only bounds the recursion
and is irrelevant whenever it is at least the input length. -/
def utf8ValidF : Nat → List Nat → Bool
  | _, [] => true
  | 0, _ :: _ => false
  | fuel + 1, b0 :: rest =>
    match runeLen (b0 :: rest) with
    | none => false
    | some w => utf8ValidF fuel ((b0 :: rest).drop w)

/-- Go `utf8.ValidString`: greedily decode runes from the front; the
string is valid when every decode step succeeds and the whole input is
consumed. -/
def utf8Valid (bs : List Nat) : Bool := utf8ValidF bs.length bs

/-- Fuelled driver for `toValidGo`. -/
def toValidGoF : Nat → List Nat → Bool → List Nat
  | _, [], _ => []
  | 0, _ :: _, _ => []
  | fuel + 1, b0 :: rest, invalid =>
    match runeLen (b0 :: rest) with
    | some w => (b0 :: rest).take w ++ toValidGoF fuel ((b0 :: rest).drop w) false
    | none => (if invalid then [] else [63]) ++ toValidGoF fuel rest true

/-- Go `strings.ToValidUTF8(s, "?")`, replacement phase: copy each valid
rune through unchanged and collapse each maximal run of invalid bytes
into a single `?` (byte 63). The `invalid` flag records whether the
previous byte belonged to an invalid run, exactly as in Go's loop. -/
def toValidGo (bs : List Nat) (invalid : Bool) : List Nat :=
  toValidGoF bs.length bs invalid

/-- Go `strings.TrimRight(s, "\x00")`: remove every trailing zero byte. -/
def trimRightZeros : List Nat → List Nat
  | [] => []
  | b :: bs =>
    let r := trimRightZeros bs
    if r = [] then (if b = 0 then [] else [b]) else b :: r

/-- `sanitizeString` from `main.go`: trim trailing zero bytes, then, when
the remaining bytes are not valid UTF-8, replace each invalid run with
`?` via `strings.ToValidUTF8`. The result is returned as the byte list
of the produced Go string. -/
def sanitizeString (b : List Nat) : List Nat :=
  let s := trimRightZeros b
  if utf8Valid s then s else toValidGo s false

/-- The protobuf `pb.Event` as populated by `broadcastEvents` in
`main.go`. `Ts` is the absolute wall-clock timestamp in nanoseconds
(an integer); string fields carry the bytes of the produced Go strings;
`Flags` is always the default `pb.Event_O_RDONLY` (0). -/
structure PbEvent where
  Ts : Int
  Pid : Nat
  Tid : Nat
  Comm : List Nat
  Syscall : String
  Path : List Nat
  NewPath : List Nat
  RetVal : Int
  Bytes : Nat
  Flags : Nat
deriving DecidableEq, Repr

/-- An `EventBatch` is the list of events in one `pb.EventBatch`;
`broadcastEvents` always builds singleton batches. -/
abbrev EventBatch : Type := List PbEvent

/-- The event construction performed by one `broadcastEvents` iteration:
`eventTime := bootTime.Add(time.Duration(e.Ts) * time.Nanosecond)` — the
`uint64 → time.Duration` conversion reinterprets the raw timestamp as a
signed 64-bit nanosecond count — followed by the field-by-field protobuf
population (string sanitisation, syscall-name lookup, default flags). -/
def mkPbEvent (bootTime : Int) (e : event) : PbEvent :=
  { Ts := bootTime + toSigned 64 e.Ts
    Pid := e.Pid
    Tid := e.Tid
    Comm := sanitizeString e.Comm
    Syscall := syscallName e.SyscallId
    Path := sanitizeString e.Path
    NewPath := sanitizeString e.NewPath
    RetVal := e.RetVal
    Bytes := e.Bytes
    Flags := 0 }

/-- Decode one raw ring-buffer sample into the protobuf event the loop
would broadcast: `binary.Read` followed by the protobuf construction. -/
def decodeRecord (bootTime : Int) (bs : List Nat) : Option PbEvent :=
  (decodeEvent bs).map (mkPbEvent bootTime)

/-- Capacity of each subscriber channel: `make(chan *pb.EventBatch, 100)`. -/
def queueCapacity : Nat := 100

/-- The non-blocking send `select { case ch <- batch: ... default: }`:
append when the channel buffer holds fewer than `queueCapacity` pending
batches, otherwise leave the queue unchanged (the batch is dropped for
this subscriber). Total: it never blocks and never fails. -/
def trySend (q : List EventBatch) (b : EventBatch) : List EventBatch :=
  if q.length < queueCapacity then q ++ [b] else q

/-- One broadcast of a batch over the registry: under the lock, attempt a
non-blocking send to every registered subscriber queue. -/
def broadcastBatch (qs : List (List EventBatch)) (b : EventBatch) : List (List EventBatch) :=
  qs.map (fun q => trySend q b)

/-- One iteration of `broadcastEvents` applied to the registry state:
decode the raw sample; on failure log and skip (queues untouched);
on success broadcast the singleton batch to every subscriber. -/
def loopStep (bootTime : Int) (qs : List (List EventBatch)) (r : List Nat) :
    List (List EventBatch) :=
  match decodeRecord bootTime r with
  | none => qs
  | some ev => broadcastBatch qs [ev]

/-- The broadcast loop over a finite list of raw samples. -/
def loopRun (bootTime : Int) (qs : List (List EventBatch)) :
    List (List Nat) → List (List EventBatch)
  | [] => qs
  | r :: rs => loopRun bootTime (loopStep bootTime qs r) rs

/-- The batches the loop would decode from a record sequence, in decode
order (each wrapped in its singleton `EventBatch`). -/
def decodedBatches (bootTime : Int) (records : List (List Nat)) : List EventBatch :=
  (records.filterMap (decodeRecord bootTime)).map (fun ev => [ev])

/-- The broadcast loop as observed by one subscriber that stays
registered throughout, with the consumer draining interleaved: before
each record is processed the consumer may remove some batches from the
front of the queue (`ds` lists how many per iteration). Returns the
final queue and the sequence of batches actually placed in the queue,
in the order they were enqueued. -/
def subLoop (bootTime : Int) :
    List (List Nat) → List Nat → List EventBatch → List EventBatch × List EventBatch
  | [], _, q => (q, [])
  | r :: rs, ds, q =>
    let q1 := q.drop (ds.headD 0)
    match decodeRecord bootTime r with
    | none => subLoop bootTime rs ds.tail q1
    | some ev =>
      if q1.length < queueCapacity then
        let rec_result := subLoop bootTime rs ds.tail (q1 ++ [[ev]])
        (rec_result.1, [ev] :: rec_result.2)
      else subLoop bootTime rs ds.tail q1

/-- Whether every enqueue attempt during the run found room in the
queue (no drop occurred for this subscriber). -/
def subLoopNoFull (bootTime : Int) :
    List (List Nat) → List Nat → List EventBatch → Bool
  | [], _, _ => true
  | r :: rs, ds, q =>
    let q1 := q.drop (ds.headD 0)
    match decodeRecord bootTime r with
    | none => subLoopNoFull bootTime rs ds.tail q1
    | some ev =>
      decide (q1.length < queueCapacity) && subLoopNoFull bootTime rs ds.tail (q1 ++ [[ev]])

/-- A subscriber channel: its buffered batches and whether `close` has
been called on it. -/
structure SubChan where
  queue : List EventBatch
  closed : Bool
deriving DecidableEq, Repr

/-- The per-session view of the registry: whether this session's channel
is still in the `clients` map, and the channel itself. -/
structure SessionState where
  registered : Bool
  ch : SubChan
deriving DecidableEq, Repr

/-- `delete(s.clients, clientChan)`: removal from the map; a no-op when
the channel is already absent. -/
def deleteClient (st : SessionState) : SessionState :=
  { st with registered := false }

/-- Go `close(ch)`: marks the channel closed; closing an already-closed
channel is a run-time panic, modelled as `none`. -/
def closeChan (c : SubChan) : Option SubChan :=
  if c.closed then none else some { c with closed := true }

/-- The deferred cleanup block of `StreamEvents` — the unregister
operation: remove the channel from the clients map, then close it.
`none` models a run-time panic. -/
def unregister (st : SessionState) : Option SessionState :=
  (closeChan (deleteClient st).ch).map (fun c => { registered := false, ch := c })

/-- The two goroutines of the unregistration race: the broadcast loop
`B` and the session handler `S` running its deferred cleanup. -/
inductive Actor
  | B
  | S
deriving DecidableEq, Repr

/-- Joint state of one broadcast racing one unregistration. `u` is the
unregistering subscriber's channel; `others` are the queues of the
subscribers that stay registered throughout. Program counters follow the
Go code: `bPC` 0 = before `mu.Lock()`, 1 = inside the locked fan-out
(`uPending` says whether `u` was in the clients map at lock time and has
not been sent to yet; `idx` counts the other subscribers already sent
to), 2 = after `mu.Unlock()`. `sPC` 0 = before the deferred cleanup,
1 = holding the lock, 2 = after `delete(s.clients, ch)`, 3 = after
`mu.Unlock()` and before `close(ch)`, 4 = done. `panicked` records a Go
run-time panic: a send on a closed channel or a double close. -/
structure RaceState where
  lockOwner : Option Actor
  bPC : Nat
  sPC : Nat
  uReg : Bool
  uClosed : Bool
  uQ : List EventBatch
  uPending : Bool
  idx : Nat
  others : List (List EventBatch)
  panicked : Bool
deriving DecidableEq, Repr

/-- Interleaving semantics of the race: each constructor is one atomic
step of one goroutine, and steps of the two goroutines interleave
arbitrarily subject only to the mutex. Sends happen one channel at a
time inside the locked section; `close` runs outside the lock. -/
inductive RaceStep (b : EventBatch) : RaceState → RaceState → Prop
  | bAcquire (s : RaceState) (h : s.bPC = 0) (hl : s.lockOwner = none) :
      RaceStep b s { s with lockOwner := some Actor.B, bPC := 1, uPending := s.uReg, idx := 0 }
  | bSendU (s : RaceState) (h : s.bPC = 1) (hp : s.uPending = true) :
      RaceStep b s { s with uPending := false,
                            uQ := if s.uClosed then s.uQ else trySend s.uQ b,
                            panicked := s.panicked || s.uClosed }
  | bSendOther (s : RaceState) (h : s.bPC = 1) (hp : s.uPending = false)
      (hi : s.idx < s.others.length) :
      RaceStep b s { s with others := s.others.set s.idx (trySend (s.others.getD s.idx []) b),
                            idx := s.idx + 1 }
  | bRelease (s : RaceState) (h : s.bPC = 1) (hp : s.uPending = false)
      (hi : s.idx = s.others.length) :
      RaceStep b s { s with lockOwner := none, bPC := 2 }
  | sAcquire (s : RaceState) (h : s.sPC = 0) (hl : s.lockOwner = none) :
      RaceStep b s { s with lockOwner := some Actor.S, sPC := 1 }
  | sDelete (s : RaceState) (h : s.sPC = 1) :
      RaceStep b s { s with uReg := false, sPC := 2 }
  | sRelease (s : RaceState) (h : s.sPC = 2) :
      RaceStep b s { s with lockOwner := none, sPC := 3 }
  | sClose (s : RaceState) (h : s.sPC = 3) :
      RaceStep b s { s with uClosed := true, sPC := 4,
                            panicked := s.panicked || s.uClosed }

/-- Initial state: the subscriber `u` is registered and open, neither
goroutine has started its critical section. -/
def raceInit (uQ0 : List EventBatch) (others0 : List (List EventBatch)) : RaceState :=
  { lockOwner := none, bPC := 0, sPC := 0, uReg := true, uClosed := false,
    uQ := uQ0, uPending := false, idx := 0, others := others0, panicked := false }

/-- Inductive invariant of the race: no panic has occurred, the channel
close is tied to the cleanup's final step, membership in the clients map
is gone from the delete onward, lock ownership matches the program
counters, a pending send to `u` implies `u` is still registered, and the
other subscribers' queues record exactly the sends performed so far. -/
def RaceInv (b : EventBatch) (others0 : List (List EventBatch)) (s : RaceState) : Prop :=
  s.panicked = false ∧
  (s.uClosed = true ↔ s.sPC = 4) ∧
  (2 ≤ s.sPC → s.uReg = false) ∧
  (s.lockOwner = some Actor.S ↔ (s.sPC = 1 ∨ s.sPC = 2)) ∧
  (s.lockOwner = some Actor.B ↔ s.bPC = 1) ∧
  (s.uPending = true → s.bPC = 1 ∧ s.uReg = true) ∧
  s.others.length = others0.length ∧
  s.idx ≤ others0.length ∧
  (s.bPC = 0 → s.others = others0) ∧
  (s.bPC = 1 → ∀ k : Nat, s.others[k]? = (others0[k]?).map (fun q => if k < s.idx then trySend q b else q)) ∧
  (s.bPC = 2 → ∀ k : Nat, s.others[k]? = (others0[k]?).map (fun q => trySend q b))

/-! ## Lemmas about trimming and sanitisation -/

theorem trim_length_le (b : List Nat) : (trimRightZeros b).length ≤ b.length := by
  induction b with
  | nil => simp [trimRightZeros]
  | cons x xs ih =>
    simp only [trimRightZeros]
    by_cases h : trimRightZeros xs = []
    · rw [if_pos h]
      by_cases hx : x = 0 <;> simp [hx]
    · rw [if_neg h]
      simp only [List.length_cons]
      omega

/-- Trimming removes exactly the trailing zero bytes: the input is the
trimmed content followed by zeros. -/
theorem trim_eq_append (b : List Nat) :
    b = trimRightZeros b ++ List.replicate (b.length - (trimRightZeros b).length) 0 := by
  induction b with
  | nil => rfl
  | cons x xs ih =>
    simp only [trimRightZeros]
    by_cases h : trimRightZeros xs = []
    · rw [if_pos h]
      rw [h] at ih
      simp only [List.nil_append] at ih
      by_cases hx : x = 0
      · rw [if_pos hx]
        simp only [List.nil_append, List.length_nil]
        conv_lhs => rw [ih, hx]
        simp [List.replicate_succ]
      · rw [if_neg hx]
        simp only [List.length_cons, List.length_nil]
        conv_lhs => rw [ih]
        simp [List.replicate_succ]
    · rw [if_neg h]
      simp only [List.cons_append, List.length_cons, Nat.succ_sub_succ]
      conv_lhs => rw [ih]

/-- The trimmed content never ends in a zero byte. -/
theorem trim_last_ne_zero (b : List Nat) : (trimRightZeros b).getLast? ≠ some 0 := by
  induction b with
  | nil => simp [trimRightZeros]
  | cons x xs ih =>
    simp only [trimRightZeros]
    by_cases h : trimRightZeros xs = []
    · rw [if_pos h]
      by_cases hx : x = 0 <;> simp [hx]
    · rw [if_neg h]
      cases hr : trimRightZeros xs with
      | nil => exact absurd hr h
      | cons y r =>
        rw [hr] at ih
        simpa [List.getLast?_cons_cons] using ih

/-- A byte sequence with a non-zero byte somewhere trims to a non-empty
result. -/
theorem trim_ne_nil (b : List Nat) (j v : Nat) (hj : b[j]? = some v) (hv : v ≠ 0) :
    trimRightZeros b ≠ [] := by
  induction b generalizing j with
  | nil => simp at hj
  | cons x xs ih =>
    simp only [trimRightZeros]
    by_cases h : trimRightZeros xs = []
    · rw [if_pos h]
      cases j with
      | zero =>
        simp only [List.getElem?_cons_zero, Option.some.injEq] at hj
        subst hj
        simp [hv]
      | succ j' =>
        simp only [List.getElem?_cons_succ] at hj
        exact absurd h (ih j' hj)
    · rw [if_neg h]
      simp


/-- Every position up to a non-zero byte survives trimming unchanged. -/
theorem trim_getElem?_eq (b : List Nat) (k j v : Nat) (hk : k ≤ j) (hj : b[j]? = some v)
    (hv : v ≠ 0) : (trimRightZeros b)[k]? = b[k]? := by
  induction b generalizing k j with
  | nil => simp at hj
  | cons x xs ih =>
    cases j with
    | zero =>
      have hk0 : k = 0 := Nat.le_zero.mp hk
      subst hk0
      simp only [List.getElem?_cons_zero, Option.some.injEq] at hj
      subst hj
      simp only [trimRightZeros]
      by_cases h : trimRightZeros xs = []
      · rw [if_pos h, if_neg hv]
        simp
      · rw [if_neg h]
        simp
    | succ j' =>
      simp only [List.getElem?_cons_succ] at hj
      have hne : trimRightZeros xs ≠ [] := trim_ne_nil xs j' v hj hv
      cases k with
      | zero =>
        simp only [trimRightZeros]
        rw [if_neg hne]
        simp
      | succ k' =>
        have hk' : k' ≤ j' := Nat.succ_le_succ_iff.mp hk
        simp only [trimRightZeros]
        rw [if_neg hne]
        simp only [List.getElem?_cons_succ]
        exact ih k' j' hk' hj

theorem byteAt_lt (bs : List Nat) (i : Nat) (h : byteAt bs i < 256) : i < bs.length := by
  by_contra hge
  have : byteAt bs i = 256 := List.getD_eq_default bs 256 (Nat.le_of_not_lt hge)
  omega

/-- A successful rune decode consumes between 1 and 4 bytes, all present
in the input. -/
theorem runeLen_size (bs : List Nat) (w : Nat) (h : runeLen bs = some w) :
    1 ≤ w ∧ w ≤ bs.length := by
  simp only [runeLen] at h
  by_cases h0 : byteAt bs 0 < 0x80
  · rw [if_pos h0] at h
    injection h with h
    subst h
    exact ⟨le_rfl, byteAt_lt bs 0 (by omega)⟩
  · rw [if_neg h0] at h
    by_cases h1 : byteAt bs 0 < 0xC2
    · rw [if_pos h1] at h
      cases h
    · rw [if_neg h1] at h
      by_cases h2 : byteAt bs 0 ≤ 0xDF
      · rw [if_pos h2] at h
        by_cases hc : 0x80 ≤ byteAt bs 1 ∧ byteAt bs 1 ≤ 0xBF
        · rw [if_pos hc] at h
          injection h with h
          subst h
          have := byteAt_lt bs 1 (by omega)
          exact ⟨by omega, by omega⟩
        · rw [if_neg hc] at h
          cases h
      · rw [if_neg h2] at h
        by_cases h3 : byteAt bs 0 ≤ 0xEF
        · rw [if_pos h3] at h
          by_cases hc : (if byteAt bs 0 = 0xE0 then 0xA0 else 0x80) ≤ byteAt bs 1
              ∧ byteAt bs 1 ≤ (if byteAt bs 0 = 0xED then 0x9F else 0xBF)
              ∧ 0x80 ≤ byteAt bs 2 ∧ byteAt bs 2 ≤ 0xBF
          · rw [if_pos hc] at h
            injection h with h
            subst h
            have := byteAt_lt bs 2 (by omega)
            exact ⟨by omega, by omega⟩
          · rw [if_neg hc] at h
            cases h
        · rw [if_neg h3] at h
          by_cases h4 : byteAt bs 0 ≤ 0xF4
          · rw [if_pos h4] at h
            by_cases hc : (if byteAt bs 0 = 0xF0 then 0x90 else 0x80) ≤ byteAt bs 1
                ∧ byteAt bs 1 ≤ (if byteAt bs 0 = 0xF4 then 0x8F else 0xBF)
                ∧ 0x80 ≤ byteAt bs 2 ∧ byteAt bs 2 ≤ 0xBF
                ∧ 0x80 ≤ byteAt bs 3 ∧ byteAt bs 3 ≤ 0xBF
            · rw [if_pos hc] at h
              injection h with h
              subst h
              have := byteAt_lt bs 3 (by omega)
              exact ⟨by omega, by omega⟩
            · rw [if_neg hc] at h
              cases h
          · rw [if_neg h4] at h
            cases h

/-- The fuel of `utf8ValidF` is irrelevant once it covers the input. -/
theorem utf8ValidF_congr (fuel : Nat) : ∀ (fuel' : Nat) (bs : List Nat),
    bs.length ≤ fuel → bs.length ≤ fuel' → utf8ValidF fuel bs = utf8ValidF fuel' bs := by
  induction fuel with
  | zero =>
    intro fuel' bs h h'
    have hbs : bs = [] := List.eq_nil_of_length_eq_zero (Nat.le_zero.mp h)
    subst hbs
    cases fuel' <;> rfl
  | succ f ih =>
    intro fuel' bs h h'
    cases bs with
    | nil => cases fuel' <;> rfl
    | cons b0 rest =>
      cases fuel' with
      | zero => simp at h'
      | succ f' =>
        cases hr : runeLen (b0 :: rest) with
        | none => simp only [utf8ValidF, hr]
        | some w =>
          simp only [utf8ValidF, hr]
          have hw := runeLen_size _ _ hr
          apply ih
          · simp only [List.length_drop, List.length_cons] at *
            omega
          · simp only [List.length_drop, List.length_cons] at *
            omega

/-- The fuel of `toValidGoF` is irrelevant once it covers the input. -/
theorem toValidGoF_congr (fuel : Nat) : ∀ (fuel' : Nat) (bs : List Nat) (invalid : Bool),
    bs.length ≤ fuel → bs.length ≤ fuel' →
    toValidGoF fuel bs invalid = toValidGoF fuel' bs invalid := by
  induction fuel with
  | zero =>
    intro fuel' bs invalid h h'
    have hbs : bs = [] := List.eq_nil_of_length_eq_zero (Nat.le_zero.mp h)
    subst hbs
    cases fuel' <;> rfl
  | succ f ih =>
    intro fuel' bs invalid h h'
    cases bs with
    | nil => cases fuel' <;> rfl
    | cons b0 rest =>
      cases fuel' with
      | zero => simp at h'
      | succ f' =>
        cases hr : runeLen (b0 :: rest) with
        | none =>
          simp only [utf8ValidF, toValidGoF, hr]
          congr 1
          apply ih
          · simp only [List.length_cons] at h
            omega
          · simp only [List.length_cons] at h'
            omega
        | some w =>
          simp only [toValidGoF, hr]
          congr 1
          have hw := runeLen_size _ _ hr
          apply ih
          · simp only [List.length_drop, List.length_cons] at *
            omega
          · simp only [List.length_drop, List.length_cons] at *
            omega

theorem utf8Valid_rune (bs : List Nat) (w : Nat) (h : runeLen bs = some w) :
    utf8Valid bs = utf8Valid (bs.drop w) := by
  have hw := runeLen_size bs w h
  cases bs with
  | nil =>
    obtain ⟨h1, h2⟩ := hw
    simp at h2
    omega
  | cons b0 rest =>
    show utf8ValidF (b0 :: rest).length (b0 :: rest) = _
    simp only [List.length_cons, utf8ValidF, h]
    apply utf8ValidF_congr
    · simp only [List.length_drop, List.length_cons] at *
      omega
    · exact le_rfl

theorem utf8Valid_invalid (b0 : Nat) (rest : List Nat) (h : runeLen (b0 :: rest) = none) :
    utf8Valid (b0 :: rest) = false := by
  show utf8ValidF (b0 :: rest).length (b0 :: rest) = false
  simp only [List.length_cons, utf8ValidF, h]

theorem runeLen_ascii (b : Nat) (hb : b < 0x80) (l : List Nat) :
    runeLen (b :: l) = some 1 := by
  simp [runeLen, byteAt, hb]

theorem utf8Valid_ascii_cons (b : Nat) (l : List Nat) (hb : b < 0x80) :
    utf8Valid (b :: l) = utf8Valid l := by
  rw [utf8Valid_rune _ 1 (runeLen_ascii b hb l)]
  rfl

theorem toValidGo_rune (bs : List Nat) (invalid : Bool) (w : Nat) (h : runeLen bs = some w) :
    toValidGo bs invalid = bs.take w ++ toValidGo (bs.drop w) false := by
  have hw := runeLen_size bs w h
  cases bs with
  | nil =>
    obtain ⟨h1, h2⟩ := hw
    simp at h2
    omega
  | cons b0 rest =>
    show toValidGoF (b0 :: rest).length (b0 :: rest) invalid = _
    simp only [List.length_cons, toValidGoF, h]
    congr 1
    apply toValidGoF_congr
    · simp only [List.length_drop, List.length_cons] at *
      omega
    · exact le_rfl

theorem toValidGo_invalid_step (b0 : Nat) (rest : List Nat) (invalid : Bool)
    (h : runeLen (b0 :: rest) = none) :
    toValidGo (b0 :: rest) invalid = (if invalid then [] else [63]) ++ toValidGo rest true := by
  show toValidGoF (b0 :: rest).length (b0 :: rest) invalid = _
  simp only [List.length_cons, toValidGoF, h]
  rfl

/-- Taking a valid rune off the front preserves validity of the rest. -/
theorem utf8Valid_take_append (bs X : List Nat) (w : Nat) (h : runeLen bs = some w) :
    utf8Valid (bs.take w ++ X) = utf8Valid X := by
  simp only [runeLen] at h
  by_cases h0 : byteAt bs 0 < 0x80
  · rw [if_pos h0] at h
    injection h with h
    subst h
    cases bs with
    | nil => simp [byteAt] at h0
    | cons b0 rest =>
      have hb : b0 < 0x80 := by simpa [byteAt] using h0
      show utf8Valid (b0 :: X) = utf8Valid X
      exact utf8Valid_ascii_cons b0 X hb
  · rw [if_neg h0] at h
    by_cases h1 : byteAt bs 0 < 0xC2
    · rw [if_pos h1] at h
      cases h
    · rw [if_neg h1] at h
      by_cases h2 : byteAt bs 0 ≤ 0xDF
      · rw [if_pos h2] at h
        by_cases hc : 0x80 ≤ byteAt bs 1 ∧ byteAt bs 1 ≤ 0xBF
        · rw [if_pos hc] at h
          injection h with h
          subst h
          match bs, hc with
          | [], hc => simp [byteAt] at hc
          | [b0], hc => simp [byteAt] at hc
          | b0 :: b1 :: rest2, hc =>
            have hb0 : ¬ b0 < 0x80 := by simpa [byteAt] using h0
            have hb1 : ¬ b0 < 0xC2 := by simpa [byteAt] using h1
            have hb2 : b0 ≤ 0xDF := by simpa [byteAt] using h2
            have hbc : 0x80 ≤ b1 ∧ b1 ≤ 0xBF := by simpa [byteAt] using hc
            show utf8Valid (b0 :: b1 :: X) = utf8Valid X
            have hr : runeLen (b0 :: b1 :: X) = some 2 := by
              simp [runeLen, byteAt, hb0, hb1, hb2, hbc.1, hbc.2]
            rw [utf8Valid_rune _ 2 hr]
            rfl
        · rw [if_neg hc] at h
          cases h
      · rw [if_neg h2] at h
        by_cases h3 : byteAt bs 0 ≤ 0xEF
        · rw [if_pos h3] at h
          by_cases hc : (if byteAt bs 0 = 0xE0 then 0xA0 else 0x80) ≤ byteAt bs 1
              ∧ byteAt bs 1 ≤ (if byteAt bs 0 = 0xED then 0x9F else 0xBF)
              ∧ 0x80 ≤ byteAt bs 2 ∧ byteAt bs 2 ≤ 0xBF
          · rw [if_pos hc] at h
            injection h with h
            subst h
            match bs, hc with
            | [], hc => simp [byteAt] at hc
            | [b0], hc => simp [byteAt] at hc
            | [b0, b1], hc => simp [byteAt] at hc
            | b0 :: b1 :: b2 :: rest3, hc =>
              have hb0 : ¬ b0 < 0x80 := by simpa [byteAt] using h0
              have hb1 : ¬ b0 < 0xC2 := by simpa [byteAt] using h1
              have hb2 : ¬ b0 ≤ 0xDF := by simpa [byteAt] using h2
              have hb3 : b0 ≤ 0xEF := by simpa [byteAt] using h3
              have hbc : (if b0 = 0xE0 then 0xA0 else 0x80) ≤ b1
                  ∧ b1 ≤ (if b0 = 0xED then 0x9F else 0xBF)
                  ∧ 0x80 ≤ b2 ∧ b2 ≤ 0xBF := by simpa [byteAt] using hc
              show utf8Valid (b0 :: b1 :: b2 :: X) = utf8Valid X
              have hr : runeLen (b0 :: b1 :: b2 :: X) = some 3 := by
                simp [runeLen, byteAt, hb0, hb1, hb2, hb3, hbc.1, hbc.2.1, hbc.2.2.1,
                  hbc.2.2.2]
              rw [utf8Valid_rune _ 3 hr]
              rfl
          · rw [if_neg hc] at h
            cases h
        · rw [if_neg h3] at h
          by_cases h4 : byteAt bs 0 ≤ 0xF4
          · rw [if_pos h4] at h
            by_cases hc : (if byteAt bs 0 = 0xF0 then 0x90 else 0x80) ≤ byteAt bs 1
                ∧ byteAt bs 1 ≤ (if byteAt bs 0 = 0xF4 then 0x8F else 0xBF)
                ∧ 0x80 ≤ byteAt bs 2 ∧ byteAt bs 2 ≤ 0xBF
                ∧ 0x80 ≤ byteAt bs 3 ∧ byteAt bs 3 ≤ 0xBF
            · rw [if_pos hc] at h
              injection h with h
              subst h
              match bs, hc with
              | [], hc => simp [byteAt] at hc
              | [b0], hc => simp [byteAt] at hc
              | [b0, b1], hc => simp [byteAt] at hc
              | [b0, b1, b2], hc => simp [byteAt] at hc
              | b0 :: b1 :: b2 :: b3 :: rest4, hc =>
                have hb0 : ¬ b0 < 0x80 := by simpa [byteAt] using h0
                have hb1 : ¬ b0 < 0xC2 := by simpa [byteAt] using h1
                have hb2 : ¬ b0 ≤ 0xDF := by simpa [byteAt] using h2
                have hb3 : ¬ b0 ≤ 0xEF := by simpa [byteAt] using h3
                have hb4 : b0 ≤ 0xF4 := by simpa [byteAt] using h4
                have hbc : (if b0 = 0xF0 then 0x90 else 0x80) ≤ b1
                    ∧ b1 ≤ (if b0 = 0xF4 then 0x8F else 0xBF)
                    ∧ 0x80 ≤ b2 ∧ b2 ≤ 0xBF ∧ 0x80 ≤ b3 ∧ b3 ≤ 0xBF := by
                  simpa [byteAt] using hc
                show utf8Valid (b0 :: b1 :: b2 :: b3 :: X) = utf8Valid X
                have hr : runeLen (b0 :: b1 :: b2 :: b3 :: X) = some 4 := by
                  simp [runeLen, byteAt, hb0, hb1, hb2, hb3, hb4, hbc.1, hbc.2.1,
                    hbc.2.2.1, hbc.2.2.2.1, hbc.2.2.2.2.1, hbc.2.2.2.2.2]
                rw [utf8Valid_rune _ 4 hr]
                rfl
            · rw [if_neg hc] at h
              cases h
          · rw [if_neg h4] at h
            cases h

theorem toValidGo_valid_aux : ∀ (n : Nat) (bs : List Nat), bs.length ≤ n →
    ∀ invalid : Bool, utf8Valid (toValidGo bs invalid) = true := by
  intro n
  induction n with
  | zero =>
    intro bs h invalid
    have hbs : bs = [] := List.eq_nil_of_length_eq_zero (Nat.le_zero.mp h)
    subst hbs
    rfl
  | succ n ih =>
    intro bs h invalid
    cases bs with
    | nil => rfl
    | cons b0 rest =>
      simp only [List.length_cons] at h
      cases hr : runeLen (b0 :: rest) with
      | some w =>
        rw [toValidGo_rune _ _ _ hr, utf8Valid_take_append _ _ _ hr]
        apply ih
        have hw := runeLen_size _ _ hr
        simp only [List.length_drop, List.length_cons]
        omega
      | none =>
        rw [toValidGo_invalid_step _ _ _ hr]
        cases invalid with
        | true =>
          simp only [if_pos]
          simpa using ih rest (by omega) true
        | false =>
          have h63 : (63 : Nat) < 0x80 := by omega
          simp only [Bool.false_eq_true, if_neg]
          show utf8Valid (63 :: toValidGo rest true) = true
          rw [utf8Valid_ascii_cons 63 _ h63]
          exact ih rest (by omega) true

/-- The replacement phase of `ToValidUTF8` always produces valid UTF-8. -/
theorem toValidGo_valid (bs : List Nat) (invalid : Bool) :
    utf8Valid (toValidGo bs invalid) = true :=
  toValidGo_valid_aux bs.length bs le_rfl invalid

/-- C4: string-field sanitisation (i) removes exactly the trailing zero
bytes — the input is the trimmed content plus a zero tail and the
trimmed content never ends in a zero; (ii) leaves the trimmed content
unchanged when it is valid UTF-8; (iii) always yields valid UTF-8, the
invalid byte runs having been replaced by the `?` placeholder; and
(iv) never causes a record of full length to be rejected — decoding
succeeds regardless of the bytes in the string fields. -/
theorem sanitize_spec :
    (∀ b : List Nat,
        b = trimRightZeros b ++ List.replicate (b.length - (trimRightZeros b).length) 0 ∧
        (trimRightZeros b).getLast? ≠ some 0) ∧
    (∀ b : List Nat, utf8Valid (trimRightZeros b) = true → sanitizeString b = trimRightZeros b) ∧
    (∀ b : List Nat, utf8Valid (sanitizeString b) = true) ∧
    (∀ (t : Int) (bs : List Nat), eventSize ≤ bs.length → (decodeRecord t bs).isSome = true) := by
  refine ⟨fun b => ⟨trim_eq_append b, trim_last_ne_zero b⟩, fun b hb => ?_, fun b => ?_,
    fun t bs hlen => ?_⟩
  · simp [sanitizeString, hb]
  · by_cases hb : utf8Valid (trimRightZeros b) = true
    · simp [sanitizeString, hb]
    · simp [sanitizeString, hb, toValidGo_valid]
  · have hnl : ¬ bs.length < eventSize := Nat.not_lt.mpr hlen
    simp [decodeRecord, decodeEvent, hnl]

set_option maxRecDepth 100000 in
/-- Witness for `sanitize_spec`: a clean ASCII field is only trimmed, and
the all-zero 564-byte record decodes. -/
theorem sanitize_spec_witness :
    sanitizeString [104, 105, 0, 0] = trimRightZeros [104, 105, 0, 0] ∧
    (decodeRecord 0 (List.replicate 564 0)).isSome = true :=
  ⟨sanitize_spec.2.1 [104, 105, 0, 0] (by decide),
   sanitize_spec.2.2.2 0 (List.replicate 564 0) (by decide)⟩

/-- C10 counterexample: the input `[0, 255, 1, 0]` has an interior zero
byte at position 0 followed by the non-zero bytes 255 and 1, yet the
decoded string is `[0, 63, 1]`: the invalid byte 255 after the interior
zero is replaced by the placeholder rather than retained, and the
trailing zero is removed, so the decoded string does not retain all
bytes after the interior zero. -/
theorem interior_zero_counterexample :
    sanitizeString [0, 255, 1, 0] = [0, 63, 1] ∧
    sanitizeString [0, 255, 1, 0] ≠ [0, 255, 1, 0] := by
  decide

/-- C10 (amended): sanitisation truncates only at trailing zeros — every
byte at a position no later than some non-zero byte survives trimming at
its position (in particular an interior zero byte followed by a later
non-zero byte is retained, not treated as a C string terminator), and
when the trimmed content is valid UTF-8 the fully sanitised string also
preserves it unchanged; bytes inside invalid UTF-8 runs are replaced by
the placeholder and zeros after the last non-zero byte are removed. -/
theorem sanitize_interior_zero (b : List Nat) (i j v : Nat) (hij : i ≤ j)
    (hj : b[j]? = some v) (hv : v ≠ 0) :
    (trimRightZeros b)[i]? = b[i]? ∧
    (utf8Valid (trimRightZeros b) = true → (sanitizeString b)[i]? = b[i]?) := by
  refine ⟨trim_getElem?_eq b i j v hij hj hv, fun hval => ?_⟩
  have hs : sanitizeString b = trimRightZeros b := by simp [sanitizeString, hval]
  rw [hs]
  exact trim_getElem?_eq b i j v hij hj hv

/-- Witness for `sanitize_interior_zero`: in `[0, 1, 0]` the leading zero
is interior (a non-zero byte follows) and survives sanitisation. -/
theorem sanitize_interior_zero_witness :
    (trimRightZeros [0, 1, 0])[0]? = [0, 1, 0][0]? ∧
    (sanitizeString [0, 1, 0])[0]? = [0, 1, 0][0]? :=
  ⟨(sanitize_interior_zero [0, 1, 0] 0 1 1 (by decide) (by decide) (by decide)).1,
   (sanitize_interior_zero [0, 1, 0] 0 1 1 (by decide) (by decide) (by decide)).2 (by decide)⟩

theorem decodedBatches_cons (t : Int) (r : List Nat) (rs : List (List Nat)) :
    decodedBatches t (r :: rs) =
      match decodeRecord t r with
      | none => decodedBatches t rs
      | some ev => [ev] :: decodedBatches t rs := by
  cases h : decodeRecord t r <;> simp [decodedBatches, List.filterMap_cons, h]

/-- C2: for any record sequence, any consumer drain schedule and any
starting queue, the batches a continuously-registered subscriber has
placed in its queue form a sublist of the decoded batches in decode
order — each decoded event is enqueued at most once and relative order
is preserved — and when no enqueue attempt finds the queue full, the
enqueued batches are exactly the decoded batches, each delivered once. -/
theorem subscriber_delivery (t : Int) : ∀ (records : List (List Nat)) (ds : List Nat)
    (q0 : List EventBatch),
    List.Sublist (subLoop t records ds q0).2 (decodedBatches t records) ∧
    (subLoopNoFull t records ds q0 = true →
      (subLoop t records ds q0).2 = decodedBatches t records) := by
  intro records
  induction records with
  | nil =>
    intro ds q0
    exact ⟨by simp [subLoop, decodedBatches], fun _ => by simp [subLoop, decodedBatches]⟩
  | cons r rs ih =>
    intro ds q0
    rw [decodedBatches_cons]
    cases h : decodeRecord t r with
    | none =>
      simp only [subLoop, subLoopNoFull, h]
      exact ih ds.tail (q0.drop (ds.headD 0))
    | some ev =>
      simp only [subLoop, subLoopNoFull, h]
      by_cases hfull : (q0.drop (ds.headD 0)).length < queueCapacity
      · simp only [if_pos hfull, hfull, decide_eq_true_eq, Bool.true_and]
        refine ⟨List.Sublist.cons₂ _ (ih ds.tail _).1, fun hnf => ?_⟩
        simpa using (ih ds.tail _).2 hnf
      · simp only [if_neg hfull]
        refine ⟨List.Sublist.cons _ (ih ds.tail _).1, fun hnf => ?_⟩
        rw [decide_eq_false hfull, Bool.false_and] at hnf
        cases hnf

set_option maxRecDepth 1000000 in
/-- Witness for `subscriber_delivery`: one decodable record, an empty
queue and no draining deliver exactly that record's batch. -/
theorem subscriber_delivery_witness :
    (subLoop 0 [List.replicate 564 0] [] []).2 = decodedBatches 0 [List.replicate 564 0] :=
  (subscriber_delivery 0 [List.replicate 564 0] [] []).2 (by decide)

/-- C5: the decoder maps syscall identifier 1 to `openat`, 2 to `write`,
3 to `rename`, and every other value to the literal name `unknown`;
the mapping is a total function, so it never fails and a record with an
unrecognised identifier still decodes to an Event. -/
theorem syscall_mapping :
    syscallName 1 = "openat" ∧ syscallName 2 = "write" ∧ syscallName 3 = "rename" ∧
    ∀ id : Nat, id ≠ 1 → id ≠ 2 → id ≠ 3 → syscallName id = "unknown" := by
  refine ⟨rfl, rfl, rfl, fun id h1 h2 h3 => ?_⟩
  simp [syscallName, h1, h2, h3]

/-- Witness for `syscall_mapping` at the concrete identifier 42. -/
theorem syscall_mapping_witness : syscallName 42 = "unknown" :=
  syscall_mapping.2.2.2 42 (by decide) (by decide) (by decide)

set_option maxRecDepth 100000 in
/-- C3 counterexample: the fixed record size of the declared layout is
564 bytes, not 652, and an input of length 564 — a length that differs
from 652 — decodes successfully, refuting the claim as stated. -/
theorem decode_length_counterexample :
    (List.replicate 564 0).length ≠ 652 ∧
    (decodeEvent (List.replicate 564 0)).isSome = true := by
  constructor
  · simp
  · decide

/-- C3 (amended): decoding fails and produces no Event exactly when the
input is shorter than the fixed 564-byte record size; `binary.Read` from
a `bytes.Reader` ignores excess bytes, so longer inputs decode
successfully from their first 564 bytes. -/
theorem decodeEvent_none_iff (bs : List Nat) :
    decodeEvent bs = none ↔ bs.length < eventSize := by
  unfold decodeEvent
  split <;> simp_all

/-- C1: broadcasting one batch over any registry state touches every
registered subscriber independently: a subscriber whose queue holds
fewer than 100 pending batches has the batch appended, and a subscriber
whose queue is full keeps its queue unchanged (the event is dropped for
that subscriber only). The broadcast is a total function on the registry
state — it never blocks on a queue and never produces an error toward
the broadcast loop. -/
theorem broadcast_per_subscriber (qs : List (List EventBatch)) (b : EventBatch) :
    (broadcastBatch qs b).length = qs.length ∧
    ∀ i, i < qs.length →
      (broadcastBatch qs b).getD i [] =
        if (qs.getD i []).length < queueCapacity
        then qs.getD i [] ++ [b] else qs.getD i [] := by
  refine ⟨by simp [broadcastBatch], fun i hi => ?_⟩
  have hq : qs[i]? = some qs[i] := List.getElem?_eq_getElem hi
  simp [broadcastBatch, trySend, List.getD_eq_getElem?_getD, List.getElem?_map, hq]

/-- Witness for `broadcast_per_subscriber`: one subscriber with an empty
queue receives the (empty) batch. -/
theorem broadcast_per_subscriber_witness :
    (broadcastBatch [([] : List EventBatch)] []).getD 0 [] =
      if (([([] : List EventBatch)]).getD 0 []).length < queueCapacity
      then ([([] : List EventBatch)]).getD 0 [] ++ [[]]
      else ([([] : List EventBatch)]).getD 0 [] :=
  (broadcast_per_subscriber [([] : List EventBatch)] []).2 0 (by decide)

/-- C7: an iteration of the broadcast loop whose record fails to decode
leaves every subscriber queue unchanged, and running the loop on the
remaining records proceeds as if the malformed record were absent — a
single malformed record never terminates the stream and its decode error
is never propagated to consumers. -/
theorem decode_fail_skips (t : Int) (qs : List (List EventBatch)) (r : List Nat)
    (rs : List (List Nat)) (h : decodeRecord t r = none) :
    loopStep t qs r = qs ∧ loopRun t qs (r :: rs) = loopRun t qs rs := by
  have h1 : loopStep t qs r = qs := by simp [loopStep, h]
  exact ⟨h1, by simp [loopRun, h1]⟩

/-- Witness for `decode_fail_skips` at the empty (malformed) record. -/
theorem decode_fail_skips_witness :
    loopStep 0 [([] : List EventBatch)] [] = [([] : List EventBatch)] ∧
    loopRun 0 [([] : List EventBatch)] ([] :: []) = loopRun 0 [([] : List EventBatch)] [] :=
  decode_fail_skips 0 [([] : List EventBatch)] [] [] (by decide)

/-- C6: the absolute timestamp of every decoded event equals the
boot-time offset plus the raw monotonic timestamp interpreted as a
(signed 64-bit) nanosecond duration, where the raw timestamp is the
little-endian 64-bit field at the start of the record; reconciliation is
deterministic — two events with the same raw timestamp under the same
offset receive identical absolute timestamps. -/
theorem timestamp_reconcile (t : Int) (bs : List Nat) (ev : event)
    (h : decodeEvent bs = some ev) :
    (mkPbEvent t ev).Ts = t + toSigned 64 (leNat (bs.take 8)) ∧
    ∀ ev2 : event, ev2.Ts = ev.Ts → (mkPbEvent t ev2).Ts = (mkPbEvent t ev).Ts := by
  unfold decodeEvent at h
  split at h
  · cases h
  · cases h
    exact ⟨rfl, fun ev2 h2 => by simp [mkPbEvent, h2]⟩

set_option maxRecDepth 100000 in
/-- Witness for `timestamp_reconcile` at the all-zero 564-byte record
and boot offset 5. -/
theorem timestamp_reconcile_witness :
    (mkPbEvent 5 { Ts := 0, Pid := 0, Tid := 0, Comm := List.replicate 16 0, SyscallId := 0,
                   RetVal := 0, Bytes := 0, Path := List.replicate 256 0,
                   NewPath := List.replicate 256 0 }).Ts
      = 5 + toSigned 64 (leNat ((List.replicate 564 0).take 8)) :=
  (timestamp_reconcile 5 (List.replicate 564 0)
    { Ts := 0, Pid := 0, Tid := 0, Comm := List.replicate 16 0, SyscallId := 0,
      RetVal := 0, Bytes := 0, Path := List.replicate 256 0,
      NewPath := List.replicate 256 0 } (by decide)).1

/-- C8 counterexample: invoking the session cleanup (map removal followed
by `close`) twice for the same handle panics on the second `close` — Go
panics when closing an already-closed channel — so the double invocation
does not have the same effect as a single one. -/
theorem unregister_twice_counterexample :
    (unregister { registered := true, ch := { queue := [], closed := false } }).bind unregister
      = none ∧
    unregister { registered := true, ch := { queue := [], closed := false } } ≠ none := by
  decide

/-- C8 (amended): unregistering removes the subscriber's queue from the
registry and closes it; the map removal alone is idempotent, but the
close is not, and the program guards against double invocation by
running the cleanup exactly once per session via a scoped `defer`. -/
theorem unregister_removes_and_closes (st : SessionState) (h : st.ch.closed = false) :
    unregister st
      = some { registered := false, ch := { queue := st.ch.queue, closed := true } } ∧
    deleteClient (deleteClient st) = deleteClient st := by
  refine ⟨?_, by simp [deleteClient]⟩
  simp [unregister, deleteClient, closeChan, h]

/-- Witness for `unregister_removes_and_closes` at a live session with an
empty queue. -/
theorem unregister_removes_and_closes_witness :
    unregister { registered := true, ch := { queue := [], closed := false } }
      = some { registered := false, ch := { queue := [], closed := true } } :=
  (unregister_removes_and_closes
    { registered := true, ch := { queue := [], closed := false } } (by decide)).1

theorem raceInv_init (b : EventBatch) (uQ0 : List EventBatch)
    (others0 : List (List EventBatch)) : RaceInv b others0 (raceInit uQ0 others0) := by
  simp [RaceInv, raceInit]

theorem raceInv_step (b : EventBatch) (others0 : List (List EventBatch))
    (s s' : RaceState) (hinv : RaceInv b others0 s) (hstep : RaceStep b s s') :
    RaceInv b others0 s' := by
  obtain ⟨c1, c2, c3, c4, c5, c6, c7, c8, c9, c10, c11⟩ := hinv
  cases hstep with
  | bAcquire h hl =>
    refine ⟨c1, c2, c3, ?_, ?_, ?_, c7, ?_, ?_, ?_, ?_⟩
    · constructor
      · intro hh
        simp at hh
      · intro hh
        have := c4.mpr hh
        rw [hl] at this
        cases this
    · simp
    · intro hp
      exact ⟨rfl, hp⟩
    · exact Nat.zero_le _
    · intro hh
      simp at hh
    · intro _ k
      show s.others[k]? = _
      rw [c9 h]
      rcases hk : others0[k]? with _ | q <;> simp
    · intro hh
      simp at hh
  | bSendU h hp =>
    have hureg : s.uReg = true := (c6 hp).2
    have hs2 : ¬ 2 ≤ s.sPC := by
      intro hh
      rw [c3 hh] at hureg
      cases hureg
    have hcl : s.uClosed = false := by
      cases hcc : s.uClosed with
      | false => rfl
      | true => exact absurd (c2.mp hcc) (by omega)
    refine ⟨?_, c2, c3, c4, c5, ?_, c7, c8, c9, c10, c11⟩
    · show (s.panicked || s.uClosed) = false
      rw [c1, hcl]
      rfl
    · intro hh
      cases hh
  | bSendOther h hp hi =>
    have hi0 : s.idx < others0.length := by omega
    obtain ⟨q0, hq0⟩ : ∃ q0, others0[s.idx]? = some q0 :=
      ⟨others0[s.idx], List.getElem?_eq_getElem hi0⟩
    have hsq : s.others[s.idx]? = some q0 := by
      rw [c10 h s.idx, hq0]
      simp
    have hgd : s.others.getD s.idx [] = q0 := by
      rw [List.getD_eq_getElem?_getD, hsq]
      rfl
    refine ⟨c1, c2, c3, c4, c5, c6, ?_, ?_, ?_, ?_, ?_⟩
    · show (s.others.set s.idx _).length = others0.length
      simp [c7]
    · show s.idx + 1 ≤ others0.length
      omega
    · intro hh
      rw [h] at hh
      cases hh
    · intro _ k
      show (s.others.set s.idx (trySend (s.others.getD s.idx []) b))[k]? = _
      rw [hgd, List.getElem?_set]
      by_cases hk : s.idx = k
      · subst hk
        rw [if_pos rfl, if_pos hi, hq0]
        simp
      · rw [if_neg hk, c10 h k]
        rcases hq : others0[k]? with _ | q
        · simp
        · simp only [Option.map_some']
          by_cases hlt : k < s.idx
          · rw [if_pos hlt, if_pos (by omega)]
          · rw [if_neg hlt, if_neg (by omega)]
    · intro hh
      rw [h] at hh
      cases hh
  | bRelease h hp hi =>
    have hbo : s.lockOwner = some Actor.B := c5.mpr h
    refine ⟨c1, c2, c3, ?_, ?_, ?_, c7, c8, ?_, ?_, ?_⟩
    · constructor
      · intro hh
        cases hh
      · intro hh
        have := c4.mpr hh
        rw [hbo] at this
        simp at this
    · constructor
      · intro hh
        cases hh
      · intro hh
        cases hh
    · intro hh
      rw [hp] at hh
      cases hh
    · intro hh
      cases hh
    · intro hh
      cases hh
    · intro _ k
      show s.others[k]? = _
      have hkk := c10 h k
      by_cases hklt : k < others0.length
      · rcases hq : others0[k]? with _ | q
        · rw [hq] at hkk
          simpa [hq] using hkk
        · rw [hq] at hkk
          simp only [Option.map_some'] at hkk ⊢
          rw [if_pos (by omega)] at hkk
          exact hkk
      · have h0 : others0[k]? = none := List.getElem?_eq_none (by omega)
        rw [h0] at hkk
        rw [h0]
        simpa using hkk
  | sAcquire h hl =>
    have hb1 : s.bPC ≠ 1 := by
      intro hh
      have := c5.mpr hh
      rw [hl] at this
      cases this
    refine ⟨c1, ?_, ?_, ?_, ?_, c6, c7, c8, c9, ?_, c11⟩
    · constructor
      · intro hh
        exact absurd (c2.mp hh) (by omega)
      · intro hh
        exact absurd (show (1 : Nat) = 4 from hh) (by omega)
    · intro hh
      exact absurd (show (2 : Nat) ≤ 1 from hh) (by omega)
    · simp
    · constructor
      · intro hh
        simp at hh
      · intro hh
        exact absurd hh hb1
    · intro hh
      exact absurd hh hb1
  | sDelete h =>
    have hos : s.lockOwner = some Actor.S := c4.mpr (Or.inl h)
    refine ⟨c1, ?_, ?_, ?_, ?_, ?_, c7, c8, c9, c10, c11⟩
    · constructor
      · intro hh
        exact absurd (c2.mp hh) (by omega)
      · intro hh
        exact absurd (show (2 : Nat) = 4 from hh) (by omega)
    · intro _
      rfl
    · exact ⟨fun _ => Or.inr rfl, fun _ => hos⟩
    · constructor
      · intro hh
        have hh2 : s.lockOwner = some Actor.B := hh
        rw [hos] at hh2
        simp at hh2
      · intro hh
        have := c5.mpr hh
        rw [hos] at this
        simp at this
    · intro hh
      have hb := (c6 hh).1
      have := c5.mpr hb
      rw [hos] at this
      simp at this
  | sRelease h =>
    have hos : s.lockOwner = some Actor.S := c4.mpr (Or.inr h)
    have hb1 : s.bPC ≠ 1 := by
      intro hh
      have := c5.mpr hh
      rw [hos] at this
      simp at this
    refine ⟨c1, ?_, ?_, ?_, ?_, ?_, c7, c8, c9, c10, c11⟩
    · constructor
      · intro hh
        exact absurd (c2.mp hh) (by omega)
      · intro hh
        exact absurd (show (3 : Nat) = 4 from hh) (by omega)
    · intro _
      exact c3 (by omega)
    · constructor
      · intro hh
        cases hh
      · intro hh
        rcases hh with hh | hh
        · exact absurd (show (3 : Nat) = 1 from hh) (by omega)
        · exact absurd (show (3 : Nat) = 2 from hh) (by omega)
    · constructor
      · intro hh
        cases hh
      · intro hh
        exact absurd hh hb1
    · intro hh
      have h1 := (c6 hh).2
      have h2 := c3 (by omega)
      rw [h1] at h2
      cases h2
  | sClose h =>
    have hcl : s.uClosed = false := by
      cases hcc : s.uClosed with
      | false => rfl
      | true => exact absurd (c2.mp hcc) (by omega)
    refine ⟨?_, ?_, ?_, ?_, c5, ?_, c7, c8, c9, c10, c11⟩
    · show (s.panicked || s.uClosed) = false
      rw [c1, hcl]
      rfl
    · simp
    · intro _
      exact c3 (by omega)
    · constructor
      · intro hh
        rcases c4.mp hh with hh2 | hh2
        · exact absurd hh2 (by omega)
        · exact absurd hh2 (by omega)
      · intro hh
        rcases hh with hh | hh
        · exact absurd (show (4 : Nat) = 1 from hh) (by omega)
        · exact absurd (show (4 : Nat) = 2 from hh) (by omega)
    · intro hh
      have h1 := (c6 hh).2
      have h2 := c3 (by omega)
      rw [h1] at h2
      cases h2

theorem raceInv_reach (b : EventBatch) (uQ0 : List EventBatch)
    (others0 : List (List EventBatch)) (s : RaceState)
    (hreach : Relation.ReflTransGen (RaceStep b) (raceInit uQ0 others0) s) :
    RaceInv b others0 s := by
  induction hreach with
  | refl => exact raceInv_init b uQ0 others0
  | tail _ hstep ih => exact raceInv_step b others0 _ _ ih hstep

/-- C9: in every interleaving of the broadcast loop's locked fan-out with
a subscriber's unregistration (map delete under the lock, then channel
close outside it), no reachable state is panicked — in particular the
loop never sends on a closed channel and the close never re-closes — and
whenever the broadcast has completed, every other registered subscriber's
queue has received the batch according to the normal non-blocking
enqueue rule; the in-flight event may or may not have reached the
unregistering subscriber. -/
theorem race_no_panic (b : EventBatch) (uQ0 : List EventBatch)
    (others0 : List (List EventBatch)) (s : RaceState)
    (hreach : Relation.ReflTransGen (RaceStep b) (raceInit uQ0 others0) s) :
    s.panicked = false ∧
    (s.bPC = 2 → ∀ k : Nat, s.others[k]? = (others0[k]?).map (fun q => trySend q b)) := by
  have hinv := raceInv_reach b uQ0 others0 s hreach
  exact ⟨hinv.1, hinv.2.2.2.2.2.2.2.2.2.2⟩

/-- Witness for `race_no_panic` at the initial state of a one-subscriber
registry. -/
theorem race_no_panic_witness :
    (raceInit [] [[]]).panicked = false :=
  (race_no_panic [] [] [[]] (raceInit [] [[]]) Relation.ReflTransGen.refl).1

end Nerrf
